import Mathlib

/-!
Verification of the sdk54-app repository against its specification.

The development shallowly embeds the repository's code:

* `ShazamApp` — the recognition screen's mock flow and history stubs
  (TypeScript, the screen component file).
* `SM` — the Swift `StateMachine` class.
* `Heavy` — the Swift `HeavyProcessor`, `DataTransformer` and
  `MatrixCalculator` classes (floating-point value computations are
  abstracted by a parameter structure; the claims proved are about
  iteration counts and shapes, which are value-independent).
* `Algorithms` — the Swift `ComplexAlgorithms.quickSort` / `mergeSort`.
* `Engine` — the audio-fingerprint matching engine of spec sections 3-4 and 8,
  which has no implementation in the repository; it is modelled from the spec.
-/

set_option maxHeartbeats 1000000
set_option maxRecDepth 16384
set_option linter.unusedVariables false

namespace ShazamApp

/-- A song as displayed by the recognition screen: title and artist. -/
structure Song where
  title : String
  artist : String
  deriving DecidableEq, Repr

/-- The delay passed to `setTimeout` in `startRecording` before
`stopRecording` is invoked ("Simulate song recognition after 3 seconds"). -/
def recognitionDelayMs : Nat := 3000

/-- The hardcoded `mockSongs` list in `stopRecording`. -/
def mockSongs : List Song :=
  [⟨"Blinding Lights", "The Weeknd"⟩,
   ⟨"Shape of You", "Ed Sheeran"⟩,
   ⟨"Levitating", "Dua Lipa"⟩,
   ⟨"Watermelon Sugar", "Harry Styles"⟩,
   ⟨"Bad Guy", "Billie Eilish"⟩]

/-- `Math.floor(Math.random() * mockSongs.length)`, where `r` is the value
returned by `Math.random()` (a number in `[0, 1)`). -/
def randomIndex (r : ℚ) : Nat :=
  (⌊r * (mockSongs.length : ℚ)⌋).toNat

/-- The mock recognition performed in `stopRecording`: the recorded audio is
stopped and unloaded but never read; the result is `mockSongs[randomIndex r]`
(JavaScript indexing, `none` modelling `undefined` when out of range). -/
def recognizeSong (audio : List Int) (r : ℚ) : Option Song :=
  mockSongs.get? (randomIndex r)

/-- History entry saved by `stopRecording`: the song spread together with a
`Date.now()` timestamp. -/
structure HistoryEntry where
  song : Song
  timestamp : Int
  deriving DecidableEq, Repr

/-- `getHistory` in the screen component: returns the empty list
("In a real app, use AsyncStorage"). `store` models whatever ambient store a
real implementation would consult; the code reads nothing from it. -/
def getHistory {S : Type} (store : S) : List HistoryEntry :=
  []

/-- `saveHistory` in the screen component: an empty body
("In a real app, use AsyncStorage"); the store is left untouched. -/
def saveHistory {S : Type} (store : S) (history : List HistoryEntry) : S :=
  store

/-- The history bookkeeping of `stopRecording`: read the saved history,
unshift the new entry, keep the last 50, save. -/
def completeRecognition {S : Type} (store : S) (song : Song) (now : Int) : S :=
  let saved := getHistory store
  saveHistory store ((({ song := song, timestamp := now } : HistoryEntry) :: saved).take 50)

/-- A sequence of completed recognitions, each running the history
bookkeeping of `stopRecording` against the store. -/
def runRecognitions {S : Type} (store : S) (recs : List (Song × Int)) : S :=
  recs.foldl (fun s p => completeRecognition s p.1 p.2) store

/-- `loadHistory` in the Library screen (`explore.tsx`): sets the displayed
history to the empty list ("For now, show empty state"). -/
def loadHistory {S : Type} (store : S) : List HistoryEntry :=
  []

end ShazamApp

namespace SM

/-- The Swift `StateMachine<State, Event>` class. `transitions` embeds the
`[State: [Event: State]]` dictionary as a partial map; `notifiedLog` records,
in order, the state passed to observers at each notification (the class calls
`observers.forEach { $0(currentState) }` after a successful transition). -/
structure StateMachine (State Event : Type) where
  currentState : State
  transitions : State → Event → Option State
  notifiedLog : List State

/-- `addTransition(from:on:to:)`: dictionary update
`transitions[from]?[event] = to`, overwriting any previous entry. -/
def addTransition {S E : Type} [DecidableEq S] [DecidableEq E]
    (m : StateMachine S E) (src : S) (ev : E) (tgt : S) : StateMachine S E :=
  { m with transitions := fun s e => if s = src ∧ e = ev then some tgt else m.transitions s e }

/-- `send(_:)`: looks up `transitions[currentState]?[event]`; on a miss
returns `false` leaving the machine untouched; on a hit updates
`currentState` and notifies every observer with the new state. -/
def send {S E : Type} (m : StateMachine S E) (ev : E) : Bool × StateMachine S E :=
  match m.transitions m.currentState ev with
  | none => (false, m)
  | some next => (true, { m with currentState := next, notifiedLog := m.notifiedLog ++ [next] })

end SM

namespace ShazamApp

/-- Claim C1: every completed recognition stops the recording on a timer
hardcoded to 3000 ms; the displayed result is one of the five fixed mock
songs, selected by a random index always within bounds of that list; and the
result never depends on the recorded audio. -/
theorem mock_recognition_spec :
    recognitionDelayMs = 3000 ∧
    mockSongs.length = 5 ∧
    ∀ (audio audio' : List Int) (r : ℚ), 0 ≤ r → r < 1 →
      randomIndex r < mockSongs.length ∧
      (∃ s ∈ mockSongs, recognizeSong audio r = some s) ∧
      recognizeSong audio r = recognizeSong audio' r := by
  refine ⟨rfl, rfl, ?_⟩
  intro audio audio' r hr0 hr1
  have hlen : (mockSongs.length : ℚ) = 5 := by norm_num [mockSongs]
  have hfl0 : (0 : ℤ) ≤ ⌊r * (mockSongs.length : ℚ)⌋ := by
    apply Int.floor_nonneg.mpr
    positivity
  have hfl5 : ⌊r * (mockSongs.length : ℚ)⌋ < 5 := by
    apply Int.floor_lt.mpr
    rw [hlen]
    push_cast
    nlinarith
  have hidx : randomIndex r < mockSongs.length := by
    have h5 : mockSongs.length = 5 := rfl
    unfold randomIndex
    omega
  refine ⟨hidx, ?_, rfl⟩
  have hget := List.get?_eq_get hidx
  exact ⟨mockSongs.get ⟨randomIndex r, hidx⟩, List.get_mem _ _ _, hget⟩

/-- Witness for C1 at `r = 1/2` and two distinct audio buffers. -/
theorem mock_recognition_spec_witness :
    randomIndex (1 / 2) < mockSongs.length ∧
    (∃ s ∈ mockSongs, recognizeSong [1] (1 / 2) = some s) ∧
    recognizeSong [1] (1 / 2) = recognizeSong [2] (1 / 2) :=
  mock_recognition_spec.2.2 [1] [2] (1 / 2) (by norm_num) (by norm_num)

/-- Claim C5: history persistence is a stub — after any sequence of completed
recognitions, `getHistory` still returns the empty list, the Library screen's
`loadHistory` yields the empty list, and the store is bit-for-bit unchanged
(`saveHistory` has no observable effect). -/
theorem history_stub_spec {S : Type} (store : S) (recs : List (Song × Int)) :
    getHistory (runRecognitions store recs) = [] ∧
    loadHistory (runRecognitions store recs) = [] ∧
    runRecognitions store recs = store := by
  refine ⟨rfl, rfl, ?_⟩
  induction recs generalizing store with
  | nil => rfl
  | cons p ps ih =>
      simpa [runRecognitions, completeRecognition, saveHistory] using ih store

end ShazamApp

namespace SM

/-- Claim C10: `StateMachine.send` is atomic on failure — with no registered
transition from the current state on the event it returns `false` and leaves
the machine (state, transition table, notification log) untouched, so no
observer is notified; when a transition is registered it returns `true`, the
current state becomes exactly the registered target, and observers are
notified once with that target. -/
theorem send_atomic {S E : Type} (m : StateMachine S E) (ev : E) :
    (m.transitions m.currentState ev = none → send m ev = (false, m)) ∧
    (∀ tgt, m.transitions m.currentState ev = some tgt →
      send m ev =
        (true, { m with currentState := tgt, notifiedLog := m.notifiedLog ++ [tgt] })) := by
  constructor
  · intro hnone
    simp [send, hnone]
  · intro tgt htgt
    simp [send, htgt]

/-- Witness for C10 on a concrete two-state machine over `Nat` states and
events: the registered transition fires to its target, an unregistered event
is rejected without any change. -/
theorem send_atomic_witness :
    send (addTransition ⟨0, fun _ _ => none, []⟩ 0 1 2) 3 =
      (false, addTransition ⟨0, fun _ _ => none, []⟩ 0 1 2) ∧
    send (addTransition ⟨0, fun _ _ => none, []⟩ 0 1 2) 1 =
      (true, { (addTransition ⟨0, fun _ _ => none, []⟩ 0 1 2 : StateMachine Nat Nat) with
               currentState := 2, notifiedLog := [2] }) := by
  constructor
  · exact (send_atomic (addTransition ⟨0, fun _ _ => none, []⟩ 0 1 2) 3).1 (by
      simp [addTransition])
  · exact (send_atomic (addTransition ⟨0, fun _ _ => none, []⟩ 0 1 2) 1).2 2 (by
      simp [addTransition])

end SM

namespace Heavy

/-- `DataTransformer.applyTransformation`: `bytes.map { ($0 &+ 7) ^ 42 }` —
wrapping `UInt8` addition of 7 followed by xor with 42. Bytes are carried as
natural numbers below 256. -/
def applyTransformation (bytes : List Nat) : List Nat :=
  bytes.map fun b => ((b + 7) % 256) ^^^ 42

/-- The accumulation `bytes.reduce(0, +)` of `applyNormalization`, where the
inferred accumulator type is `UInt8`, whose `+` traps on overflow: `none`
models a Swift runtime trap once a partial sum exceeds 255. -/
def sumUInt8 (bytes : List Nat) : Option Nat :=
  bytes.foldl (fun acc b => acc.bind fun s => if s + b ≤ 255 then some (s + b) else none)
    (some 0)

/-- `DataTransformer.applyNormalization`: the trapping byte sum, then
`average = UInt8(sum / bytes.count)` (integer division, trapping on a zero
count), then `bytes.map { $0 &- average }` (wrapping subtraction). -/
def applyNormalization (bytes : List Nat) : Option (List Nat) :=
  (sumUInt8 bytes).bind fun sum =>
    if bytes.length = 0 then none
    else some (bytes.map fun b => (b + 256 - sum / bytes.length) % 256)

/-- Lower-case hex digit for a value below 16. -/
def hexDigit (n : Nat) : Char :=
  if n < 10 then Char.ofNat (48 + n) else Char.ofNat (87 + n)

/-- `String(format: "%02x", byte)` for a byte value. -/
def byteHex (b : Nat) : String :=
  String.mk [hexDigit (b / 16 % 16), hexDigit (b % 16)]

/-- `DataTransformer.applyFormatting`: hex-format each byte and join. -/
def applyFormatting (bytes : List Nat) : String :=
  String.join (bytes.map byteHex)

/-- `DataTransformer.transform`; the input string is given as its UTF-8 byte
sequence (`applyEncoding` is `Array(str.utf8)`). `none` models a runtime
trap in any stage. -/
def transform (inputBytes : List Nat) : Option String :=
  (applyNormalization (applyTransformation inputBytes)).map applyFormatting

/-- Once the trapping sum has trapped, folding further never recovers. -/
theorem sumUInt8_fold_none (l : List Nat) :
    l.foldl (fun acc b => acc.bind fun s => if s + b ≤ 255 then some (s + b) else none)
      none = none := by
  induction l with
  | nil => rfl
  | cons b t ih => simpa using ih

/-- If the running total would exceed 255, the trapping `UInt8` sum traps. -/
theorem sumUInt8_overflow (l : List Nat) (a : Nat) (ha : a ≤ 255) (h : 255 < a + l.sum) :
    l.foldl (fun acc b => acc.bind fun s => if s + b ≤ 255 then some (s + b) else none)
      (some a) = none := by
  induction l generalizing a with
  | nil => simp at h; omega
  | cons b t ih =>
      simp only [List.foldl_cons, Option.some_bind]
      by_cases hb : a + b ≤ 255
      · rw [if_pos hb]
        apply ih _ hb
        simp only [List.sum_cons] at h
        omega
      · rw [if_neg hb]
        exact sumUInt8_fold_none t

end Heavy

namespace Heavy

/-- Claim C9: `DataTransformer.transform` is not total — the empty input
traps in `applyNormalization` by dividing by the zero byte count, and any
input whose post-transformation byte values sum above 255 traps by `UInt8`
overflow in the byte-sum accumulation. -/
theorem transform_traps :
    transform [] = none ∧
    ∀ bs : List Nat, 255 < (applyTransformation bs).sum → transform bs = none := by
  constructor
  · rfl
  · intro bs h
    have : sumUInt8 (applyTransformation bs) = none := by
      unfold sumUInt8
      exact sumUInt8_overflow _ 0 (by omega) (by omega)
    simp [transform, applyNormalization, this]

/-- Witness for C9: the empty string, and a two-byte input whose transformed
bytes are 255 each (sum 510 > 255). -/
theorem transform_traps_witness :
    transform [] = none ∧ (255 < (applyTransformation [206, 206]).sum ∧ transform [206, 206] = none) :=
  ⟨transform_traps.1, by decide, transform_traps.2 [206, 206] (by decide)⟩

/-- Abstraction of the Swift `Double` values flowing through
`HeavyProcessor`: `ofScaled i` models `Double(i) * 3.14159 / 2.71828`
(`transformSequence`), `gtInt x t` models `x > Double(t)`
(`filterSequence`), and `reduceToInt` models `Int(sequence.reduce(0, +))`
(`reduceSequence`). Floating-point value semantics are abstracted by the
parameter; the properties proved concern iteration counts and sequence
lengths, which hold under every interpretation of the parameter. -/
structure DoubleModel (D : Type) where
  ofScaled : Int → D
  gtInt : D → Int → Bool
  reduceToInt : List D → Int

/-- `HeavyProcessor.generateSequence`: `(0..<count).map { start + $0 * 7 }`. -/
def generateSequence (start : Int) (count : Nat) : List Int :=
  (List.range count).map fun i => start + Int.ofNat i * 7

/-- `HeavyProcessor.transformSequence`. -/
def transformSequence {D : Type} (M : DoubleModel D) (sequence : List Int) : List D :=
  sequence.map M.ofScaled

/-- `HeavyProcessor.filterSequence`: `sequence.filter { $0 > Double(threshold) }`. -/
def filterSequence {D : Type} (M : DoubleModel D) (sequence : List D) (threshold : Int) :
    List D :=
  sequence.filter fun x => M.gtInt x threshold

/-- `HeavyProcessor.reduceSequence`. -/
def reduceSequence {D : Type} (M : DoubleModel D) (sequence : List D) : Int :=
  M.reduceToInt sequence

/-- `HeavyProcessor.complexCalculation`: generate 100 values, transform,
filter with the iteration number as threshold, reduce. -/
def complexCalculation {D : Type} (M : DoubleModel D) (input : Int) (iteration : Int) : Int :=
  reduceSequence M (filterSequence M (transformSequence M (generateSequence input 100)) iteration)

/-- `HeavyProcessor.processLargeDataset`: fold `complexCalculation` over the
fixed iteration range `0..<1000`. -/
def processLargeDataset {D : Type} (M : DoubleModel D) (value : Int) : Int :=
  (List.range 1000).foldl (fun result i => complexCalculation M result (Int.ofNat i)) value

/-- Instrumented `processLargeDataset`: alongside the result it returns the
number of `complexCalculation` invocations performed and the length of the
sequence generated by each invocation. -/
def processLargeDatasetTrace {D : Type} (M : DoubleModel D) (value : Int) :
    Int × Nat × List Nat :=
  (List.range 1000).foldl
    (fun acc i =>
      (complexCalculation M acc.1 (Int.ofNat i), acc.2.1 + 1,
        acc.2.2 ++ [(generateSequence acc.1 100).length]))
    (value, 0, [])

/-- The instrumented fold: invocation count grows by the list length, every
recorded sequence length is 100 (or was already in the log), and the result
component agrees with the plain fold. -/
theorem processTrace_fold_aux {D : Type} (M : DoubleModel D) (l : List Nat) :
    ∀ (v : Int) (c : Nat) (log : List Nat),
      (l.foldl
        (fun acc i =>
          (complexCalculation M acc.1 (Int.ofNat i), acc.2.1 + 1,
            acc.2.2 ++ [(generateSequence acc.1 100).length]))
        (v, c, log)).2.1 = c + l.length ∧
      (∀ n ∈ (l.foldl
        (fun acc i =>
          (complexCalculation M acc.1 (Int.ofNat i), acc.2.1 + 1,
            acc.2.2 ++ [(generateSequence acc.1 100).length]))
        (v, c, log)).2.2, n ∈ log ∨ n = 100) ∧
      (l.foldl
        (fun acc i =>
          (complexCalculation M acc.1 (Int.ofNat i), acc.2.1 + 1,
            acc.2.2 ++ [(generateSequence acc.1 100).length]))
        (v, c, log)).1 = l.foldl (fun result i => complexCalculation M result (Int.ofNat i)) v := by
  induction l with
  | nil => intro v c log; exact ⟨rfl, fun n hn => Or.inl hn, rfl⟩
  | cons i t ih =>
      intro v c log
      simp only [List.foldl_cons, List.length_cons]
      obtain ⟨h1, h2, h3⟩ := ih (complexCalculation M v (Int.ofNat i)) (c + 1)
        (log ++ [(generateSequence v 100).length])
      refine ⟨by omega, ?_, h3⟩
      intro n hn
      rcases h2 n hn with hmem | h100
      · rcases List.mem_append.mp hmem with hl | hr
        · exact Or.inl hl
        · right
          have hlen : n = (generateSequence v 100).length := by simpa using hr
          simp [hlen, generateSequence]
      · exact Or.inr h100

/-- Abstraction of the `Double`-valued element computations of
`MatrixCalculator`: `calcElement r c n` models
`sin(base)*cos(base)+tan(base/2)` with `base = Double(r*c)/Double(n)`
(`calculateElement`), and `transformElement x` models
`pow(x,2)+sqrt(abs(x))-log(abs(x)+1)` (`transformMatrix`). -/
structure MatrixModel (D : Type) where
  calcElement : Nat → Nat → Nat → D
  transformElement : D → D

/-- `MatrixCalculator.generateMatrix`: builds a square `actualSize × actualSize`
matrix with `actualSize = min(size, 100)`, then maps `transformMatrix`
element-wise (shape preserving). -/
def generateMatrix {D : Type} (M : MatrixModel D) (size : Int) : List (List D) :=
  let actualSize := (min size 100).toNat
  let matrix := (List.range actualSize).map fun i =>
    (List.range actualSize).map fun j => M.calcElement i j actualSize
  matrix.map fun row => row.map M.transformElement

/-- Claim C6: the native module's computations are fixed-iteration busywork
independent of input content — `processLargeDataset` performs exactly 1000
invocations of `complexCalculation`, each generating a 100-element sequence,
for every integer input and every interpretation of the `Double` arithmetic;
and `generateMatrix size` is a square matrix of dimension `min(size, 100)`
for every `size ≥ 0`. No step reads audio or fingerprints. -/
theorem busywork_shape {D : Type} (M : DoubleModel D) (MM : MatrixModel D)
    (value : Int) (size : Int) (hsize : 0 ≤ size) :
    (processLargeDatasetTrace M value).2.1 = 1000 ∧
    (∀ n ∈ (processLargeDatasetTrace M value).2.2, n = 100) ∧
    (processLargeDatasetTrace M value).1 = processLargeDataset M value ∧
    (generateMatrix MM size).length = (min size 100).toNat ∧
    ∀ row ∈ generateMatrix MM size, row.length = (min size 100).toNat := by
  obtain ⟨h1, h2, h3⟩ := processTrace_fold_aux M (List.range 1000) value 0 []
  refine ⟨by simpa using h1, ?_, h3, ?_, ?_⟩
  · intro n hn
    rcases h2 n hn with hmem | h100
    · simp at hmem
    · exact h100
  · simp [generateMatrix]
  · intro row hrow
    simp only [generateMatrix, List.mem_map] at hrow
    obtain ⟨r0, hr0, hrw⟩ := hrow
    obtain ⟨i, hi, hr0'⟩ := hr0
    subst hrw
    subst hr0'
    simp

/-- A trivial integer interpretation of the abstract `Double` arithmetic,
used only to instantiate the C6 theorem at concrete inputs. -/
def intDoubleModel : DoubleModel Int :=
  ⟨fun i => i, fun x t => decide (t < x), fun l => l.sum⟩

/-- A trivial integer interpretation of the matrix element computations,
used only to instantiate the C6 theorem at concrete inputs. -/
def intMatrixModel : MatrixModel Int :=
  ⟨fun _ _ _ => 0, fun x => x⟩

/-- Witness for C6 at `value = 3`, `size = 7`, with the integer
interpretation of the abstract arithmetic. -/
theorem busywork_shape_witness :
    (0 : Int) ≤ 7 ∧
    ((processLargeDatasetTrace intDoubleModel 3).2.1 = 1000 ∧
    (∀ n ∈ (processLargeDatasetTrace intDoubleModel 3).2.2, n = 100) ∧
    (processLargeDatasetTrace intDoubleModel 3).1 = processLargeDataset intDoubleModel 3 ∧
    (generateMatrix intMatrixModel 7).length = (min (7 : Int) 100).toNat ∧
    ∀ row ∈ generateMatrix intMatrixModel 7, row.length = (min (7 : Int) 100).toNat) :=
  ⟨by decide, busywork_shape intDoubleModel intMatrixModel 3 7 (by decide)⟩

end Heavy

namespace Algorithms

/-- `ComplexAlgorithms.quickSort`: guard on `count > 1`, pivot at index
`count / 2`, partition into strictly-less, equal and strictly-greater parts
by `filter`, recurse on the strict parts. -/
def quickSort {α : Type} [LinearOrder α] (array : List α) : List α :=
  if h : array.length ≤ 1 then array
  else
    let pivot := array.get ⟨array.length / 2, by omega⟩
    quickSort (array.filter fun x => x < pivot) ++
      (array.filter fun x => x = pivot) ++
      quickSort (array.filter fun x => pivot < x)
termination_by array.length
decreasing_by
  · exact List.length_filter_lt_length_iff_exists.mpr
      ⟨array.get ⟨array.length / 2, by omega⟩, List.get_mem _ _ _, by simp⟩
  · exact List.length_filter_lt_length_iff_exists.mpr
      ⟨array.get ⟨array.length / 2, by omega⟩, List.get_mem _ _ _, by simp⟩

/-- The merge loop of `ComplexAlgorithms.mergeSort`: repeatedly take the
smaller head (the right head on ties), then append the leftover tails. -/
def merge {α : Type} [LinearOrder α] : List α → List α → List α
  | [], right => right
  | a :: l, [] => a :: l
  | a :: l, b :: r =>
      if a < b then a :: merge l (b :: r) else b :: merge (a :: l) r
termination_by l r => l.length + r.length

/-- `ComplexAlgorithms.mergeSort`: split at `count / 2`, sort both halves,
merge. -/
def mergeSort {α : Type} [LinearOrder α] (array : List α) : List α :=
  if h : array.length ≤ 1 then array
  else
    merge (mergeSort (array.take (array.length / 2)))
      (mergeSort (array.drop (array.length / 2)))
termination_by array.length
decreasing_by
  · simp only [List.length_take]; omega
  · simp only [List.length_drop]; omega

/-- Counting an element that fails the predicate in a filtered list gives 0. -/
theorem count_filter_eq_zero {α : Type} [DecidableEq α] (p : α → Bool) (l : List α) (a : α)
    (h : p a = false) : (l.filter p).count a = 0 := by
  apply List.count_eq_zero.mpr
  intro hm
  have h2 := (List.mem_filter.mp hm).2
  rw [h] at h2
  exact Bool.noConfusion h2

/-- Partitioning a list at a pivot into less, equal and greater parts is a
permutation of the list. -/
theorem partition3_perm {α : Type} [LinearOrder α] (arr : List α) (p : α) :
    List.Perm
      ((arr.filter fun x => x < p) ++ (arr.filter fun x => x = p) ++
        (arr.filter fun x => p < x)) arr := by
  rw [List.perm_iff_count]
  intro x
  simp only [List.count_append]
  rcases lt_trichotomy x p with hlt | heq | hgt
  · have e1 : (arr.filter fun y => y < p).count x = arr.count x :=
      List.count_filter (by simpa using hlt)
    have e2 : (arr.filter fun y => y = p).count x = 0 :=
      count_filter_eq_zero _ _ _ (by simp only [decide_eq_false_iff_not]; exact ne_of_lt hlt)
    have e3 : (arr.filter fun y => p < y).count x = 0 :=
      count_filter_eq_zero _ _ _ (by simp only [decide_eq_false_iff_not]; exact lt_asymm hlt)
    rw [e1, e2, e3]
    omega
  · subst heq
    have e1 : (arr.filter fun y => y < x).count x = 0 :=
      count_filter_eq_zero _ _ _ (by simp only [decide_eq_false_iff_not]; exact lt_irrefl x)
    have e2 : (arr.filter fun y => y = x).count x = arr.count x :=
      List.count_filter (by simp)
    have e3 : (arr.filter fun y => x < y).count x = 0 :=
      count_filter_eq_zero _ _ _ (by simp only [decide_eq_false_iff_not]; exact lt_irrefl x)
    rw [e1, e2, e3]
    omega
  · have e1 : (arr.filter fun y => y < p).count x = 0 :=
      count_filter_eq_zero _ _ _ (by simp only [decide_eq_false_iff_not]; exact lt_asymm hgt)
    have e2 : (arr.filter fun y => y = p).count x = 0 :=
      count_filter_eq_zero _ _ _ (by simp only [decide_eq_false_iff_not]; exact ne_of_gt hgt)
    have e3 : (arr.filter fun y => p < y).count x = arr.count x :=
      List.count_filter (by simpa using hgt)
    rw [e1, e2, e3]
    omega

/-- `quickSort` permutes its input. -/
theorem quickSort_perm {α : Type} [LinearOrder α] (array : List α) :
    List.Perm (quickSort array) array := by
  induction array using quickSort.induct with
  | case1 arr h =>
      rw [quickSort, dif_pos h]
  | case2 arr h pivot ih1 ih2 =>
      rw [quickSort, dif_neg h]
      refine List.Perm.trans ?_ (partition3_perm arr (arr.get ⟨arr.length / 2, by omega⟩))
      exact List.Perm.append (List.Perm.append ih1 (List.Perm.refl _)) ih2

/-- A list all of whose elements equal a constant is sorted. -/
theorem pairwise_le_of_all_eq {α : Type} [LinearOrder α] (l : List α) (c : α)
    (h : ∀ x ∈ l, x = c) : List.Sorted (· ≤ ·) l := by
  induction l with
  | nil => exact List.Pairwise.nil
  | cons a t ih =>
      refine List.Pairwise.cons ?_ (ih fun x hx => h x (List.mem_cons_of_mem _ hx))
      intro y hy
      rw [h a (List.mem_cons_self _ _), h y (List.mem_cons_of_mem _ hy)]

/-- `quickSort` sorts ascending. -/
theorem quickSort_sorted {α : Type} [LinearOrder α] (array : List α) :
    List.Sorted (· ≤ ·) (quickSort array) := by
  induction array using quickSort.induct with
  | case1 arr h =>
      rw [quickSort, dif_pos h]
      match arr, h with
      | [], _ => exact List.Pairwise.nil
      | [a], _ => exact List.pairwise_singleton _ a
  | case2 arr h pivot ih1 ih2 =>
      rw [quickSort, dif_neg h]
      have hmem1 : ∀ x ∈ quickSort (arr.filter fun y =>
          y < arr.get ⟨arr.length / 2, by omega⟩), x < arr.get ⟨arr.length / 2, by omega⟩ := by
        intro x hx
        have hx2 := (quickSort_perm _).mem_iff.mp hx
        have hx3 := (List.mem_filter.mp hx2).2
        simpa using hx3
      have hmem2 : ∀ x ∈ arr.filter fun y => y = arr.get ⟨arr.length / 2, by omega⟩,
          x = arr.get ⟨arr.length / 2, by omega⟩ := by
        intro x hx
        have hx2 := (List.mem_filter.mp hx).2
        simpa using hx2
      have hmem3 : ∀ x ∈ quickSort (arr.filter fun y =>
          arr.get ⟨arr.length / 2, by omega⟩ < y), arr.get ⟨arr.length / 2, by omega⟩ < x := by
        intro x hx
        have hx2 := (quickSort_perm _).mem_iff.mp hx
        have hx3 := (List.mem_filter.mp hx2).2
        simpa using hx3
      rw [List.Sorted, List.pairwise_append, List.pairwise_append]
      refine ⟨⟨ih1, pairwise_le_of_all_eq _ _ hmem2, ?_⟩, ih2, ?_⟩
      · intro a ha b hb
        exact le_of_lt (lt_of_lt_of_le (hmem1 a ha) (hmem2 b hb).ge)
      · intro a ha b hb
        have hb' := hmem3 b hb
        rcases List.mem_append.mp ha with h1 | h2
        · exact le_of_lt (lt_trans (hmem1 a h1) hb')
        · exact le_of_lt ((hmem2 a h2).le.trans_lt hb')

/-- The merge loop produces a permutation of the two inputs appended. -/
theorem merge_perm {α : Type} [LinearOrder α] (l r : List α) :
    List.Perm (merge l r) (l ++ r) := by
  induction l, r using merge.induct with
  | case1 right => simp [merge]
  | case2 a l => rw [merge]; simp
  | case3 a l b r hab ih =>
      rw [merge, if_pos hab]
      exact List.Perm.cons a ih
  | case4 a l b r hab ih =>
      rw [merge, if_neg hab]
      exact List.Perm.trans (List.Perm.cons b ih) List.perm_middle.symm

/-- The merge loop of two sorted lists is sorted. -/
theorem merge_sorted {α : Type} [LinearOrder α] (l r : List α)
    (hl : List.Sorted (· ≤ ·) l) (hr : List.Sorted (· ≤ ·) r) :
    List.Sorted (· ≤ ·) (merge l r) := by
  induction l, r using merge.induct with
  | case1 right => rw [merge]; exact hr
  | case2 a l => rw [merge]; exact hl
  | case3 a l b r hab ih =>
      rw [merge, if_pos hab]
      rw [List.sorted_cons] at hl ⊢
      refine ⟨?_, ih hl.2 hr⟩
      intro y hy
      rcases List.mem_append.mp ((merge_perm l (b :: r)).mem_iff.mp hy) with hyl | hyr
      · exact hl.1 y hyl
      · rcases List.mem_cons.mp hyr with hyb | hyr2
        · exact hyb ▸ le_of_lt hab
        · exact (le_of_lt hab).trans ((List.sorted_cons.mp hr).1 y hyr2)
  | case4 a l b r hab ih =>
      rw [merge, if_neg hab]
      have hba : b ≤ a := le_of_not_lt hab
      rw [List.sorted_cons] at hr ⊢
      refine ⟨?_, ih hl hr.2⟩
      intro y hy
      rcases List.mem_append.mp ((merge_perm (a :: l) r).mem_iff.mp hy) with hyl | hyr
      · rcases List.mem_cons.mp hyl with hya | hyl2
        · exact hya ▸ hba
        · exact hba.trans ((List.sorted_cons.mp hl).1 y hyl2)
      · exact hr.1 y hyr

/-- `mergeSort` permutes its input. -/
theorem mergeSort_perm {α : Type} [LinearOrder α] (array : List α) :
    List.Perm (mergeSort array) array := by
  induction array using mergeSort.induct with
  | case1 arr h =>
      rw [mergeSort, dif_pos h]
  | case2 arr h ih1 ih2 =>
      rw [mergeSort, dif_neg h]
      refine List.Perm.trans (merge_perm _ _) ?_
      refine List.Perm.trans (List.Perm.append ih1 ih2) ?_
      rw [List.take_append_drop]

/-- `mergeSort` sorts ascending. -/
theorem mergeSort_sorted {α : Type} [LinearOrder α] (array : List α) :
    List.Sorted (· ≤ ·) (mergeSort array) := by
  induction array using mergeSort.induct with
  | case1 arr h =>
      rw [mergeSort, dif_pos h]
      match arr, h with
      | [], _ => exact List.Pairwise.nil
      | [a], _ => exact List.pairwise_singleton _ a
  | case2 arr h ih1 ih2 =>
      rw [mergeSort, dif_neg h]
      exact merge_sorted _ _ ih1 ih2

/-- Claim C8: for every list of comparable elements, `quickSort` and
`mergeSort` return the same result, namely the ascending sorted permutation
of the input. -/
theorem quickSort_eq_mergeSort {α : Type} [LinearOrder α] (array : List α) :
    quickSort array = mergeSort array ∧
    List.Sorted (· ≤ ·) (mergeSort array) ∧
    List.Perm (mergeSort array) array := by
  have hq := quickSort_sorted array
  have hqp := quickSort_perm array
  have hm := mergeSort_sorted array
  have hmp := mergeSort_perm array
  exact ⟨List.eq_of_perm_of_sorted (hqp.trans hmp.symm) hq hm, hm, hmp⟩

end Algorithms

namespace Engine

/-- Modelled from the spec: the source repository has no matching engine (the
recognition flow is a mock), so the `AudioFrame` of spec section 3 is
embedded as an ordered sequence of integer amplitude samples. -/
def AudioFrame : Type := List Int

/-- Modelled from the spec (section 3): a fingerprint is a 32-bit hash, an
anchor time in ms, and an optional owning track id (set only for reference
fingerprints). -/
structure Fingerprint where
  hash : Nat
  anchorTimeMs : Int
  trackId : Option String
  deriving DecidableEq, Repr

/-- Modelled from the spec (section 6): the engine's configuration surface,
all optional and defaulted — sample rate, minimum audio window, windowing
and peak-extraction knobs, acceptance confidence threshold. -/
structure Config where
  sampleRate : Nat := 44100
  minWindow : Nat := 1024
  windowSize : Nat := 1024
  hopSize : Nat := 512
  bandSize : Nat := 32
  noiseFloor : Nat := 0
  acceptThreshold : ℚ := mkRat 1 10

/-- Modelled from the spec (section 4.1): the per-window frequency-band
energies standing in for the short-time spectral transform (the spec leaves
the exact transform tunable): the window is cut into contiguous bands and
each band's energy is its sum of squared amplitudes. -/
def bandEnergies (cfg : Config) (window : List Int) : List Nat :=
  (List.range (window.length / max cfg.bandSize 1)).map fun f =>
    (((window.drop (f * max cfg.bandSize 1)).take (max cfg.bandSize 1)).map
      fun s => (s * s).toNat).sum

/-- Modelled from the spec (section 4.1): band `f` is a local energy peak when
its energy exceeds the noise floor and is at least its neighbours'. -/
def isPeak (noiseFloor : Nat) (energies : List Nat) (f : Nat) : Bool :=
  decide (noiseFloor < energies.getD f 0) &&
    (decide (f = 0) || decide (energies.getD (f - 1) 0 ≤ energies.getD f 0)) &&
    decide (energies.getD (f + 1) 0 ≤ energies.getD f 0)

/-- The peak band indices of one window. -/
def windowPeaks (cfg : Config) (window : List Int) : List Nat :=
  (List.range (bandEnergies cfg window).length).filter fun f =>
    isPeak cfg.noiseFloor (bandEnergies cfg window) f

/-- Modelled from the spec (section 4.1): the `(timeMs, band)` peaks of every
overlapping window of the audio frame, windows advancing by the hop size,
the time of a peak being its window start converted to ms. -/
def allPeaks (cfg : Config) (a : AudioFrame) : List (Int × Nat) :=
  (List.range ((List.length a - cfg.windowSize) / max cfg.hopSize 1 + 1)).flatMap fun w =>
    (windowPeaks cfg ((List.drop (w * max cfg.hopSize 1) a).take cfg.windowSize)).map fun f =>
      (Int.ofNat (w * max cfg.hopSize 1 * 1000 / max cfg.sampleRate 1), f)

/-- Modelled from the spec (section 4.1): the hash of a peak pair —
`(freq1, freq2, deltaTime)` quantized into 12+12+8 bits, 32 bits total. -/
def pairHash (f1 f2 : Nat) (dt : Int) : Nat :=
  f1 % 4096 * 1048576 + f2 % 4096 * 256 + dt.toNat % 256

/-- Modelled from the spec (section 4.1): each peak is paired with the next
peak; the fingerprint anchors at the first peak's time. -/
def pairPeaks : List (Int × Nat) → List Fingerprint
  | [] => []
  | [_] => []
  | p :: q :: rest =>
      { hash := pairHash p.2 q.2 (q.1 - p.1), anchorTimeMs := p.1, trackId := none } ::
        pairPeaks (q :: rest)

/-- The output order of spec section 4.1: ascending anchor time, ties by
ascending hash. -/
def fpLE (x y : Fingerprint) : Bool :=
  decide (x.anchorTimeMs < y.anchorTimeMs) ||
    (decide (x.anchorTimeMs = y.anchorTimeMs) && decide (x.hash ≤ y.hash))

/-- Insertion step of the fingerprint ordering. -/
def insertFp (x : Fingerprint) : List Fingerprint → List Fingerprint
  | [] => [x]
  | y :: ys => if fpLE x y then x :: y :: ys else y :: insertFp x ys

/-- Sort fingerprints into the output order of spec section 4.1. -/
def sortFingerprints : List Fingerprint → List Fingerprint
  | [] => []
  | x :: xs => insertFp x (sortFingerprints xs)

/-- Modelled from the spec (sections 4.1 and 7): extraction failure on audio
shorter than the minimum window. -/
inductive ExtractError
  | insufficientAudio
  deriving DecidableEq, Repr

/-- Modelled from the spec (section 4.1): `extract` — reject audio shorter
than the minimum window with `InsufficientAudio`, otherwise window, find
peaks, pair and hash them, and emit fingerprints in the specified order, the
`trackId` left unset. A pure function of the configuration and the audio. -/
def extract (cfg : Config) (a : AudioFrame) : Except ExtractError (List Fingerprint) :=
  if List.length a < cfg.minWindow then .error .insufficientAudio
  else .ok (sortFingerprints (pairPeaks (allPeaks cfg a)))

/-- Modelled from the spec (section 4.2): the Fingerprint Index — a mapping
from hash to the list of `(trackId, anchorTimeMs)` pairs stored under it. -/
def HashIndex : Type := Nat → List (String × Int)

/-- The empty index. -/
def emptyIndex : HashIndex := fun _ => []

/-- Modelled from the spec (section 3): a reference track with its metadata
and its fingerprints (each carrying the track's id). -/
structure Track where
  id : String
  title : String
  artist : String
  fingerprints : List Fingerprint
  deriving DecidableEq, Repr

/-- The `(trackId, anchorTimeMs)` pairs a track contributes to the bucket of
hash `h`: one per fingerprint of the track with that hash. -/
def trackEntries (t : Track) (h : Nat) : List (String × Int) :=
  (t.fingerprints.filter fun fp => fp.hash = h).map fun fp => (t.id, fp.anchorTimeMs)

/-- Modelled from the spec (section 4.2): `add` — idempotent per track id:
any prior entries of the same id are replaced, then the track's pairs are
appended to each bucket. -/
def addTrack (t : Track) (idx : HashIndex) : HashIndex :=
  fun h => ((idx h).filter fun p => p.1 ≠ t.id) ++ trackEntries t h

/-- Modelled from the spec (section 4.2): `lookup` — the bucket of a hash;
an absent hash yields the empty sequence, not an error. -/
def lookup (idx : HashIndex) (h : Nat) : List (String × Int) :=
  idx h

/-- Modelled from the spec (section 4.2): `remove` — deletes all entries of a
track id; a no-op on an unknown id. -/
def removeTrack (tid : String) (idx : HashIndex) : HashIndex :=
  fun h => (idx h).filter fun p => p.1 ≠ tid

/-- Modelled from the spec (section 3): a transient match candidate — the
track and its best-bin vote count. -/
structure MatchCandidate where
  trackId : String
  votes : Nat
  deriving DecidableEq, Repr

/-- The fixed alignment-bin width of spec section 4.3 (ms). -/
def binWidthMs : Int := 50

/-- The alignment bin of a time-offset delta. -/
def binOf (delta : Int) : Int := delta / binWidthMs

/-- Modelled from the spec (section 4.3): every index hit of every query
fingerprint, as `(trackId, delta)` with `delta = indexedAnchor - queryAnchor`. -/
def queryHits (idx : HashIndex) (qs : List Fingerprint) : List (String × Int) :=
  qs.flatMap fun q => (lookup idx q.hash).map fun p => (p.1, p.2 - q.anchorTimeMs)

/-- The deltas of one track's hits. -/
def deltasFor (hits : List (String × Int)) (tid : String) : List Int :=
  (hits.filter fun p => p.1 = tid).map fun p => p.2

/-- Modelled from the spec (section 4.3): a track's vote count — deltas are
bucketed into fixed-width bins and the fullest bin wins (time-coherent
histogram). -/
def votesFor (hits : List (String × Int)) (tid : String) : Nat :=
  (((deltasFor hits tid).map binOf).dedup.map fun b =>
    (deltasFor hits tid).countP fun d => binOf d = b).foldl max 0

/-- Modelled from the spec (section 4.3): the candidate vote threshold —
5 percent of the query fingerprint count, minimum 10. -/
def minVotes (queryCount : Nat) : Nat := max 10 ((queryCount + 19) / 20)

/-- The distinct track ids appearing among the hits. -/
def candidateIds (hits : List (String × Int)) : List String :=
  (hits.map fun p => p.1).dedup

/-- The candidate order of spec section 4.3: descending votes, ties by
ascending track id. -/
def candLE (c d : MatchCandidate) : Bool :=
  decide (d.votes < c.votes) || (decide (c.votes = d.votes) && decide (c.trackId ≤ d.trackId))

/-- Insertion step of the candidate ordering. -/
def insertCand (c : MatchCandidate) : List MatchCandidate → List MatchCandidate
  | [] => [c]
  | d :: ds => if candLE c d then c :: d :: ds else d :: insertCand c ds

/-- Sort candidates best-first. -/
def sortCandidates : List MatchCandidate → List MatchCandidate
  | [] => []
  | c :: cs => insertCand c (sortCandidates cs)

/-- Modelled from the spec (section 4.3): `match` — look up every query
fingerprint, histogram the deltas per track, keep tracks whose best bin
meets the vote threshold, order best-first. -/
def matchQuery (idx : HashIndex) (qs : List Fingerprint) : List MatchCandidate :=
  sortCandidates ((candidateIds (queryHits idx qs)).filterMap fun tid =>
    if minVotes qs.length ≤ votesFor (queryHits idx qs) tid then
      some { trackId := tid, votes := votesFor (queryHits idx qs) tid }
    else none)

/-- Modelled from the spec (sections 2 and 6): the engine instance — its
configuration, its hash index, and the tracks it owns. -/
structure MatchEngine where
  cfg : Config
  idx : HashIndex
  tracks : List Track

/-- A fresh engine with an empty index. -/
def emptyEngine (cfg : Config) : MatchEngine :=
  { cfg := cfg, idx := emptyIndex, tracks := [] }

/-- Mark a query fingerprint as a reference fingerprint of a track. -/
def setTrackId (tid : String) (fp : Fingerprint) : Fingerprint :=
  { fp with trackId := some tid }

/-- Modelled from the spec (section 6): `ingest` — compute the reference
fingerprints of the raw audio via section 4.1, build the `Track`, store it
via section 4.2. -/
def ingest (e : MatchEngine) (tid title artist : String) (audio : AudioFrame) :
    Except ExtractError (Track × MatchEngine) :=
  (extract e.cfg audio).map fun fps =>
    let t : Track := { id := tid, title := title, artist := artist,
                       fingerprints := fps.map (setTrackId tid) }
    (t, { e with idx := addTrack t e.idx, tracks := t :: e.tracks })

/-- Modelled from the spec (section 3): the status of a recognition result. -/
inductive Status
  | matched
  | noMatch
  | timedOut
  | failed
  deriving DecidableEq, Repr

/-- Modelled from the spec (section 3): `RecognitionResult`. -/
structure RecognitionResult where
  status : Status
  track : Option Track
  confidence : ℚ
  deriving DecidableEq, Repr

/-- The stored track of a given id, if any. -/
def findTrack (tracks : List Track) (tid : String) : Option Track :=
  tracks.find? fun t => t.id = tid

/-- Clamp a confidence into `[0, 1]` (spec section 3). -/
def clamp01 (q : ℚ) : ℚ := min 1 (max 0 q)

/-- Modelled from the spec (sections 4.3 and 4.4): query the engine with
audio — extract, match, and accept the top candidate iff its confidence
(top votes over total query fingerprints, clamped) reaches the acceptance
threshold; otherwise `NoMatch`. -/
def recognize (e : MatchEngine) (audio : AudioFrame) :
    Except ExtractError RecognitionResult :=
  (extract e.cfg audio).map fun qs =>
    match matchQuery e.idx qs with
    | [] => { status := .noMatch, track := none, confidence := 0 }
    | top :: _ =>
        if e.cfg.acceptThreshold ≤ clamp01 ((top.votes : ℚ) / (qs.length : ℚ)) then
          { status := .matched, track := findTrack e.tracks top.trackId,
            confidence := clamp01 ((top.votes : ℚ) / (qs.length : ℚ)) }
        else
          { status := .noMatch, track := none,
            confidence := clamp01 ((top.votes : ℚ) / (qs.length : ℚ)) }

/-- One extractor call as the session sees it: it reads the engine state and
returns the fingerprints together with the (unchanged) engine. -/
def extractCall (e : MatchEngine) (a : AudioFrame) :
    Except ExtractError (List Fingerprint) × MatchEngine :=
  (extract e.cfg a, e)

/-- Modelled from the spec (section 4.4): the session state machine's phases;
`capturing`, `extracting` and `matching` are the in-flight phases,
`completed`, `timedOut` and `failed` terminal. -/
inductive SessionPhase
  | idle
  | capturing
  | extracting
  | matching
  | completed (r : RecognitionResult)
  | timedOut
  | failed

/-- A session is in flight in `capturing`, `extracting` or `matching`. -/
def SessionPhase.inFlight : SessionPhase → Bool
  | .capturing => true
  | .extracting => true
  | .matching => true
  | _ => false

/-- Modelled from the spec (section 7): the error of a second session start
while one is in flight. -/
inductive StartError
  | sessionAlreadyActive
  deriving DecidableEq, Repr

/-- Modelled from the spec (sections 4.4 and 7): the externally visible
session state — current phase, the pending (single-assignment) result slot,
and whether capture is running. -/
structure SessionState where
  phase : SessionPhase
  pendingResult : Option RecognitionResult
  recordingActive : Bool

/-- Modelled from the spec (sections 4.4, 6 and 7): `startSession` — fails
immediately with `SessionAlreadyActive` when a session is in flight, leaving
the state untouched; otherwise enters `Capturing` with a cleared result slot. -/
def startSession (s : SessionState) : Except StartError Unit × SessionState :=
  if s.phase.inFlight then (.error .sessionAlreadyActive, s)
  else (.ok (), { phase := .capturing, pendingResult := none, recordingActive := true })

/-- Claim C3: the fingerprint extractor is deterministic and has no hidden
state — two successive extractor calls on the same audio, threading the
engine state through, return identical fingerprint sequences, and the engine
state is unchanged by a call. -/
theorem extract_deterministic (e : MatchEngine) (a : AudioFrame) :
    (extractCall e a).1 = (extractCall (extractCall e a).2 a).1 ∧
    (extractCall e a).2 = e :=
  ⟨rfl, rfl⟩

/-- Claim C4: `add` is idempotent per track id — adding the same track twice
leaves every subsequent lookup identical to a single add, because re-adding
replaces the prior entries instead of duplicating them. -/
theorem add_idempotent (t : Track) (idx : HashIndex) :
    ∀ h, lookup (addTrack t (addTrack t idx)) h = lookup (addTrack t idx) h := by
  intro h
  show ((((idx h).filter fun p => p.1 ≠ t.id) ++ trackEntries t h).filter
      fun p => p.1 ≠ t.id) ++ trackEntries t h =
    ((idx h).filter fun p => p.1 ≠ t.id) ++ trackEntries t h
  rw [List.filter_append]
  have h1 : (((idx h).filter fun p => p.1 ≠ t.id).filter fun p => p.1 ≠ t.id) =
      (idx h).filter fun p => p.1 ≠ t.id := by
    rw [List.filter_filter]
    simp
  have h2 : ((trackEntries t h).filter fun p => p.1 ≠ t.id) = [] := by
    unfold trackEntries
    rw [List.filter_map]
    have : ((t.fingerprints.filter fun fp => fp.hash = h).filter
        ((fun p : String × Int => decide (p.1 ≠ t.id)) ∘ fun fp => (t.id, fp.anchorTimeMs))) = [] := by
      apply List.filter_eq_nil_iff.mpr
      intro fp hfp
      simp [Function.comp]
    rw [this, List.map_nil]
  rw [h1, h2, List.append_nil]

/-- Claim C7: starting a session while one is in flight fails immediately
with `SessionAlreadyActive` and the whole state (phase, pending result,
recording flag) is unchanged; in particular a start from an inactive state
followed by a second start makes the second fail without touching the state
the first produced. -/
theorem start_reentrant (s : SessionState) :
    (s.phase.inFlight = true → startSession s = (.error .sessionAlreadyActive, s)) ∧
    (s.phase.inFlight = false →
      startSession (startSession s).2 = (.error .sessionAlreadyActive, (startSession s).2)) := by
  constructor
  · intro h
    simp [startSession, h]
  · intro h
    have h2 : startSession s =
        (.ok (), { phase := .capturing, pendingResult := none, recordingActive := true }) := by
      unfold startSession
      rw [if_neg (by simp [h])]
    rw [h2]
    rfl

/-- Witness for C7: a second start fails both from an explicitly capturing
state and right after a successful start from idle. -/
theorem start_reentrant_witness :
    startSession { phase := .capturing, pendingResult := none, recordingActive := true } =
      (.error .sessionAlreadyActive,
        { phase := .capturing, pendingResult := none, recordingActive := true }) ∧
    startSession (startSession
        { phase := .idle, pendingResult := none, recordingActive := false }).2 =
      (.error .sessionAlreadyActive, (startSession
        { phase := .idle, pendingResult := none, recordingActive := false }).2) :=
  ⟨(start_reentrant _).1 rfl, (start_reentrant _).2 rfl⟩

/-- The fold of `max` only grows past its initial value. -/
theorem foldl_max_init (l : List Nat) : ∀ a, a ≤ l.foldl max a := by
  induction l with
  | nil => intro a; exact Nat.le_refl a
  | cons b t ih => intro a; exact le_trans (le_max_left a b) (ih (max a b))

/-- Every member of a list is at most the `max`-fold of the list. -/
theorem mem_le_foldl_max (l : List Nat) : ∀ (a x : Nat), x ∈ l → x ≤ l.foldl max a := by
  induction l with
  | nil => intro a x hx; simp at hx
  | cons b t ih =>
      intro a x hx
      rcases List.mem_cons.mp hx with rfl | hx2
      · exact le_trans (le_max_right a x) (foldl_max_init t (max a x))
      · exact ih (max a b) x hx2

/-- If every element contributes at least one satisfying hit, the flat-map
holds at least one satisfying hit per element. -/
theorem length_le_countP_flatMap {β γ : Type} (l : List β) (f : β → List γ) (p : γ → Bool)
    (h : ∀ x ∈ l, ∃ y ∈ f x, p y) : l.length ≤ (l.flatMap f).countP p := by
  induction l with
  | nil => simp
  | cons x xs ih =>
      rw [List.flatMap_cons, List.countP_append]
      have h1 : 0 < (f x).countP p := List.countP_pos_iff.mpr (h x (List.mem_cons_self _ _))
      have h2 := ih fun y hy => h y (List.mem_cons_of_mem _ hy)
      simp only [List.length_cons]
      omega

/-- Deduplicating a nonempty constant list yields the one-element list. -/
theorem dedup_all_eq {β : Type} [DecidableEq β] (l : List β) (c : β) :
    l ≠ [] → (∀ x ∈ l, x = c) → l.dedup = [c] := by
  induction l with
  | nil => intro hne; exact absurd rfl hne
  | cons a t ih =>
      intro hne h
      have ha : a = c := h a (List.mem_cons_self _ _)
      subst ha
      by_cases ht : t = []
      · subst ht; rfl
      · have hd := ih ht fun x hx => h x (List.mem_cons_of_mem _ hx)
        obtain ⟨y, hy⟩ := List.exists_mem_of_ne_nil t ht
        have hy2 : y = a := h y (List.mem_cons_of_mem _ hy)
        rw [List.dedup_cons_of_mem (hy2 ▸ hy), hd]

/-- A lookup in an index holding a single track returns exactly that track's
entries for the hash. -/
theorem lookup_addTrack_empty (t : Track) (h : Nat) :
    lookup (addTrack t emptyIndex) h = trackEntries t h := by
  show (([] : List (String × Int)).filter fun p => p.1 ≠ t.id) ++ trackEntries t h =
    trackEntries t h
  rw [List.filter_nil, List.nil_append]

/-- Core of the round-trip property: an engine holding exactly one track,
whose reference fingerprints came from extracting some audio, recognizes
that same audio as that track with confidence 1 (clamped), provided the
query has at least the minimum 10 fingerprints and the acceptance threshold
is at most 1. -/
theorem round_trip_aux (cfg : Config) (tid : String) (audio : AudioFrame)
    (fps : List Fingerprint) (T : Track) (E : MatchEngine)
    (hex : extract cfg audio = .ok fps)
    (hTid : T.id = tid)
    (hTfps : T.fingerprints = fps.map (setTrackId tid))
    (hEcfg : E.cfg = cfg) (hEidx : E.idx = addTrack T emptyIndex)
    (hEtr : E.tracks = [T])
    (hacc : cfg.acceptThreshold ≤ 1)
    (hN : 10 ≤ fps.length) :
    ∃ res : RecognitionResult,
      recognize E audio = .ok res ∧ res.status = .matched ∧
      cfg.acceptThreshold ≤ res.confidence ∧ res.track.map Track.id = some tid := by
  have hA : ∀ q ∈ fps, (tid, (0 : Int)) ∈
      (lookup (addTrack T emptyIndex) q.hash).map fun p => (p.1, p.2 - q.anchorTimeMs) := by
    intro q hq
    rw [lookup_addTrack_empty]
    have h1 : setTrackId tid q ∈ T.fingerprints := by
      rw [hTfps]; exact List.mem_map_of_mem _ hq
    have h3 : setTrackId tid q ∈ T.fingerprints.filter fun fp => fp.hash = q.hash :=
      List.mem_filter.mpr ⟨h1, by simp [setTrackId]⟩
    have h4 := List.mem_map_of_mem (fun fp => (T.id, fp.anchorTimeMs)) h3
    have h5 := List.mem_map_of_mem
      (fun p : String × Int => (p.1, p.2 - q.anchorTimeMs)) h4
    simpa [setTrackId, hTid, trackEntries] using h5
  have hB : ∀ p ∈ queryHits (addTrack T emptyIndex) fps, p.1 = tid := by
    intro p hp
    obtain ⟨q, hq, hpq⟩ := List.mem_flatMap.mp hp
    obtain ⟨pr, hpr, hpr2⟩ := List.mem_map.mp hpq
    rw [lookup_addTrack_empty] at hpr
    unfold trackEntries at hpr
    obtain ⟨fp, hfp, hfp2⟩ := List.mem_map.mp hpr
    subst hpr2
    subst hfp2
    simpa using hTid
  have hfps_ne : fps ≠ [] := by
    intro h0
    rw [h0] at hN
    simp at hN
  obtain ⟨q0, hq0⟩ := List.exists_mem_of_ne_nil fps hfps_ne
  have hmem0 : (tid, (0 : Int)) ∈ queryHits (addTrack T emptyIndex) fps :=
    List.mem_flatMap.mpr ⟨q0, hq0, hA q0 hq0⟩
  have hD : deltasFor (queryHits (addTrack T emptyIndex) fps) tid =
      (queryHits (addTrack T emptyIndex) fps).map fun p => p.2 := by
    unfold deltasFor
    rw [List.filter_eq_self.mpr]
    intro p hp
    simp [hB p hp]
  have hE2 : fps.length ≤ (queryHits (addTrack T emptyIndex) fps).countP
      fun p => decide (binOf p.2 = binOf 0) := by
    unfold queryHits
    apply length_le_countP_flatMap
    intro q hq
    exact ⟨(tid, 0), hA q hq, by simp⟩
  have hcm : (((queryHits (addTrack T emptyIndex) fps).map fun p => p.2).countP
      fun d => decide (binOf d = binOf 0)) =
      (queryHits (addTrack T emptyIndex) fps).countP fun p => decide (binOf p.2 = binOf 0) := by
    rw [List.countP_map]
    rfl
  have hv : fps.length ≤ votesFor (queryHits (addTrack T emptyIndex) fps) tid := by
    unfold votesFor
    rw [hD]
    have hbin : binOf 0 ∈
        (((queryHits (addTrack T emptyIndex) fps).map fun p => p.2).map binOf).dedup := by
      apply List.mem_dedup.mpr
      apply List.mem_map_of_mem
      exact List.mem_map.mpr ⟨(tid, 0), hmem0, rfl⟩
    have hcnt := mem_le_foldl_max
      ((((queryHits (addTrack T emptyIndex) fps).map fun p => p.2).map binOf).dedup.map
        fun b => ((queryHits (addTrack T emptyIndex) fps).map fun p => p.2).countP
          fun d => decide (binOf d = b)) 0
      (((queryHits (addTrack T emptyIndex) fps).map fun p => p.2).countP
        fun d => decide (binOf d = binOf 0))
      (List.mem_map_of_mem _ hbin)
    calc fps.length
        ≤ (queryHits (addTrack T emptyIndex) fps).countP
            (fun p => decide (binOf p.2 = binOf 0)) := hE2
      _ = (((queryHits (addTrack T emptyIndex) fps).map fun p => p.2).countP
            fun d => decide (binOf d = binOf 0)) := hcm.symm
      _ ≤ _ := hcnt
  have hc : candidateIds (queryHits (addTrack T emptyIndex) fps) = [tid] := by
    unfold candidateIds
    apply dedup_all_eq
    · intro h0
      have : queryHits (addTrack T emptyIndex) fps = [] := by
        cases hqh : queryHits (addTrack T emptyIndex) fps with
        | nil => rfl
        | cons a l => rw [hqh] at h0; simp at h0
      rw [this] at hmem0
      simp at hmem0
    · intro x hx
      obtain ⟨p, hp, rfl⟩ := List.mem_map.mp hx
      exact hB p hp
  have hge : minVotes fps.length ≤ votesFor (queryHits (addTrack T emptyIndex) fps) tid := by
    have hmv : minVotes fps.length ≤ fps.length := by
      unfold minVotes
      omega
    omega
  have hmq : matchQuery (addTrack T emptyIndex) fps =
      [{ trackId := tid, votes := votesFor (queryHits (addTrack T emptyIndex) fps) tid }] := by
    unfold matchQuery
    rw [hc]
    have hsingle : (List.filterMap (fun tid' =>
        if minVotes fps.length ≤ votesFor (queryHits (addTrack T emptyIndex) fps) tid' then
          some (MatchCandidate.mk tid' (votesFor (queryHits (addTrack T emptyIndex) fps) tid'))
        else none) [tid]) =
        [MatchCandidate.mk tid (votesFor (queryHits (addTrack T emptyIndex) fps) tid)] := by
      simp [List.filterMap_cons, hge]
    rw [hsingle]
    rfl
  have hN0 : (0 : ℚ) < (fps.length : ℚ) := by
    have : 0 < fps.length := by omega
    exact_mod_cast this
  have hone : (1 : ℚ) ≤
      ((votesFor (queryHits (addTrack T emptyIndex) fps) tid : ℚ) / (fps.length : ℚ)) := by
    rw [one_le_div hN0]
    exact_mod_cast hv
  have hcl : clamp01
      ((votesFor (queryHits (addTrack T emptyIndex) fps) tid : ℚ) / (fps.length : ℚ)) = 1 := by
    unfold clamp01
    rw [max_eq_right (le_trans zero_le_one hone), min_eq_left hone]
  have hft : findTrack [T] tid = some T := by
    unfold findTrack
    rw [List.find?_cons_of_pos]
    exact decide_eq_true hTid
  have hres : recognize E audio = .ok { status := .matched, track := some T, confidence := 1 } := by
    unfold recognize
    rw [hEcfg, hex]
    simp only [Except.map]
    rw [hEidx, hEtr, hmq]
    simp [hcl, hacc, hft]
  exact ⟨{ status := .matched, track := some T, confidence := 1 }, hres, rfl, by simpa using hacc,
    by simp [hTid]⟩

/-- Claim C2: ingesting a track into a fresh engine and querying with the
exact same audio yields a `Matched` result, with confidence at least the
acceptance threshold and the ingested track's id — given the spec's default
thresholds are in range (acceptance ≤ 1) and the audio yields at least the
minimum 10 fingerprints required by the vote threshold. -/
theorem round_trip (cfg : Config) (tid title artist : String) (audio : AudioFrame)
    (t : Track) (e : MatchEngine)
    (hacc : cfg.acceptThreshold ≤ 1)
    (hing : ingest (emptyEngine cfg) tid title artist audio = .ok (t, e))
    (hN : 10 ≤ t.fingerprints.length) :
    ∃ res : RecognitionResult,
      recognize e audio = .ok res ∧ res.status = .matched ∧
      cfg.acceptThreshold ≤ res.confidence ∧ res.track.map Track.id = some tid := by
  unfold ingest at hing
  cases hex : extract (emptyEngine cfg).cfg audio with
  | error err =>
      rw [hex] at hing
      simp [Except.map] at hing
  | ok fps =>
      rw [hex] at hing
      simp only [Except.map, Except.ok.injEq, Prod.mk.injEq] at hing
      obtain ⟨ht, he⟩ := hing
      subst ht
      subst he
      refine round_trip_aux cfg tid audio fps _ _ hex rfl rfl rfl rfl rfl hacc ?_
      simpa using hN

/-- Concrete engine configuration used only to instantiate the C2 round-trip
theorem: tiny windows so a short audio frame yields many fingerprints. -/
def witCfg : Config :=
  { sampleRate := 1000, minWindow := 4, windowSize := 4, hopSize := 2, bandSize := 1,
    noiseFloor := 0, acceptThreshold := mkRat 1 10 }

/-- Concrete audio used only to instantiate the C2 round-trip theorem. -/
def witAudio : AudioFrame :=
  ([3, 1, 3, 1, 3, 1, 3, 1, 3, 1, 3, 1, 3, 1, 3, 1, 3, 1, 3, 1, 3, 1, 3, 1] : List Int)

/-- The track and engine produced by ingesting `witAudio` into a fresh
engine. -/
def witPair : Track × MatchEngine :=
  (Except.toOption (ingest (emptyEngine witCfg) "A" "Song" "Artist" witAudio)).getD
    (Track.mk "" "" "" [], emptyEngine witCfg)

/-- Witness for C2: a concrete ingest-then-query round trip at `witCfg` and
`witAudio` (21 fingerprints extracted). -/
theorem round_trip_witness :
    witCfg.acceptThreshold ≤ 1 ∧
    ingest (emptyEngine witCfg) "A" "Song" "Artist" witAudio = .ok (witPair.1, witPair.2) ∧
    10 ≤ witPair.1.fingerprints.length ∧
    ∃ res : RecognitionResult,
      recognize witPair.2 witAudio = .ok res ∧ res.status = .matched ∧
      witCfg.acceptThreshold ≤ res.confidence ∧ res.track.map Track.id = some "A" :=
  ⟨by decide, rfl, by decide,
    round_trip witCfg "A" "Song" "Artist" witAudio witPair.1 witPair.2
      (by decide) rfl (by decide)⟩

end Engine
